import Mathlib

/-!
Verification of the streaming core of the Corinna backend: the replayable
stream hub (src/backend/api/stream_hub.py), the event translator and runner
(src/backend/api/main.py, stream_agent_events / stream_with_final_result),
and the run-ancestry resolution of the company-research callback handler
(src/host-company-research/api/main.py).

The Python source is shallowly embedded.  Every `async` method of
`StreamJob` / `StreamHub` runs its whole body inside one critical section
(`async with self._cond` / `self._lock`, never awaiting while holding the
lock except the condition wait), so each method becomes a pure state
transformer.  The subscriber loop becomes a function over the sequence of
(buffer, done) snapshots it observes at successive lock acquisitions.  The
SSE generators become functions from the engine trace (a list of records,
possibly followed by a raised exception) to the list of emitted events.
-/

namespace Corinna

/-- Observable state of a `StreamJob` (stream_hub.py lines 11-20).
`created_at`, the condition variable and the task handle carry no logic and
are omitted; `events`, `done` and `error` are the mutable state. -/
structure StreamJobState where
  events : List String
  done : Bool
  error : Option String
deriving Repr, DecidableEq

/-- `StreamJob.append` (stream_hub.py lines 22-25): under the lock, append
the chunk to `events` and notify all waiters.  The source performs no check
of `done`. -/
def StreamJobState.append (j : StreamJobState) (chunk : String) : StreamJobState :=
  { j with events := j.events ++ [chunk] }

/-- `StreamJob.finish` (stream_hub.py lines 27-31): under the lock, set
`done := true`, assign `error := e` (unconditionally, with `None` as the
default argument), and notify all waiters. -/
def StreamJobState.finish (j : StreamJobState) (e : Option String) : StreamJobState :=
  { j with done := true, error := e }

/-- Claim C4 counterexample: on a job whose `done` flag is already true,
`append` does not fail; it mutates the buffer.  Concretely, appending "x"
to a done job with an empty buffer yields the buffer ["x"], a different
state, so `events` is not immutable once `done` is true. -/
theorem c4_append_after_done_mutates :
    (StreamJobState.append ⟨[], true, none⟩ "x").events = ["x"] ∧
      StreamJobState.append ⟨[], true, none⟩ "x" ≠ ⟨[], true, none⟩ := by
  constructor
  · rfl
  · decide

/-- Claim C4, amended: `StreamJob.append` never raises and always extends
the buffer by exactly the given chunk, leaving `done` and `error`
untouched, even when `done` is already true; the buffer is therefore not
immutable after `done`, and the no-append-after-finish discipline rests on
the runner alone. -/
theorem c4_append_always_appends (j : StreamJobState) (chunk : String) :
    (j.append chunk).events = j.events ++ [chunk] ∧
      (j.append chunk).done = j.done ∧ (j.append chunk).error = j.error := by
  refine ⟨rfl, rfl, rfl⟩

/-- Claim C5 counterexample: `finish` is not first-call-wins.  Starting
from a fresh job, `finish (some "a")` then `finish (some "b")` records the
error "b", whereas `finish (some "a")` alone records "a"; the second call
is not a no-op. -/
theorem c5_finish_second_call_overwrites :
    StreamJobState.finish (StreamJobState.finish ⟨[], false, none⟩ (some "a")) (some "b") ≠
      StreamJobState.finish ⟨[], false, none⟩ (some "a") := by
  decide

/-- Claim C5, amended: `StreamJob.finish` is last-call-wins, not
first-call-wins: a repeated call leaves `done` true (so the flag is
idempotent) but overwrites the recorded error with the newest argument, so
`finish e1` followed by `finish e2` is the same state as `finish e2`
alone. -/
theorem c5_finish_last_call_wins (j : StreamJobState) (e1 e2 : Option String) :
    StreamJobState.finish (StreamJobState.finish j e1) e2 = StreamJobState.finish j e2 ∧
      (StreamJobState.finish j e1).done = true := by
  refine ⟨rfl, rfl⟩

/-- One run of the `StreamJob.subscribe` loop (stream_hub.py lines 33-53)
over the sequence of (events, done) snapshots the subscriber observes at
its successive acquisitions of the job lock.  Each iteration copies the
slice `events[idx:]` under the lock and reads `done`; the slice is yielded
outside the lock; the local cursor advances to the buffer length when the
slice was non-empty (`max idx b.length` is that update, and is the identity
when the slice was empty); the loop returns after the first snapshot with
`done = true`, and otherwise waits on the condition and re-reads, which is
the step to the next snapshot. -/
def subscribeRun (idx : Nat) : List (List String × Bool) → List String
  | [] => []
  | (b, d) :: rest =>
    if d then b.drop idx
    else b.drop idx ++ subscribeRun (max idx b.length) rest

/-- `StreamJob.subscribe` with its integer cursor argument: the source
clamps the cursor with `idx = max(0, cursor)` (line 35) before entering the
loop. -/
def subscribe (cursor : Int) (states : List (List String × Bool)) : List String :=
  subscribeRun (max 0 cursor).toNat states

/-- In a chain of buffers where each is a prefix of the next and the list
ends with `final`, the head is a prefix of `final`. -/
theorem chain_head_pre_last {α : Type} (b : List α) (l : List (List α)) (final : List α)
    (h : List.Chain' (fun x y => x <+: y) (b :: (l ++ [final]))) : b <+: final := by
  induction l generalizing b with
  | nil =>
    rw [List.nil_append, List.chain'_cons] at h
    exact h.1
  | cons x xs ih =>
    rw [List.cons_append, List.chain'_cons] at h
    exact h.1.trans (ih x h.2)

/-- Dropping `c` elements from a list splits across a prefix: the part of
the prefix past `c` followed by the part of the whole past
`max c b.length` is exactly the part of the whole past `c`. -/
theorem drop_split_of_pre {α : Type} (b final : List α) (c : Nat) (h : b <+: final) :
    b.drop c ++ final.drop (max c b.length) = final.drop c := by
  obtain ⟨t, rfl⟩ := h
  by_cases hc : c ≤ b.length
  · rw [max_eq_right hc, List.drop_left, List.drop_append_eq_append_drop,
      Nat.sub_eq_zero_of_le hc, List.drop_zero]
  · push_neg at hc
    rw [max_eq_left hc.le, List.drop_eq_nil_of_le (le_of_lt hc), List.nil_append]

/-- Core replay lemma for `subscribe`: over any run whose snapshots form a
prefix chain (the buffer is append-only), whose intermediate snapshots are
not done, and whose last snapshot is the final buffer with `done = true`,
the loop started at cursor `idx` yields exactly `final.drop idx`. -/
theorem subscribeRun_eq_drop (mids : List (List String × Bool)) (final : List String)
    (idx : Nat) (hmids : ∀ x ∈ mids, x.2 = false)
    (hchain : List.Chain' (fun x y => x <+: y) ((mids ++ [(final, true)]).map Prod.fst)) :
    subscribeRun idx (mids ++ [(final, true)]) = final.drop idx := by
  induction mids generalizing idx with
  | nil => simp [subscribeRun]
  | cons hd tl ih =>
    obtain ⟨b, d⟩ := hd
    have hd_false : d = false := hmids (b, d) (by simp)
    subst hd_false
    rw [List.cons_append]
    show (if false = true then b.drop idx
      else b.drop idx ++ subscribeRun (max idx b.length) (tl ++ [(final, true)])) = _
    rw [if_neg (by simp)]
    rw [List.cons_append, List.map_cons] at hchain
    have hpre : b <+: final := by
      have := hchain
      rw [show (tl ++ [(final, true)]).map Prod.fst = tl.map Prod.fst ++ [final] by simp] at this
      exact chain_head_pre_last b (tl.map Prod.fst) final this
    have htl : List.Chain' (fun x y => x <+: y) ((tl ++ [(final, true)]).map Prod.fst) :=
      (List.chain'_cons'.mp hchain).2
    rw [ih (max idx b.length) (fun x hx => hmids x (by simp [hx])) htl]
    exact drop_split_of_pre b final idx hpre

/-- Claim C2: a subscriber created at cursor `c`, with `0 ≤ c ≤` the length
of the final buffer, yields by termination exactly `events[c:]` of the
final buffer, in order, with no gaps and no repeats; consequently two
subscribers starting from cursor 0, each observing its own run of
append-only snapshots ending at the same final buffer, observe the
identical ordered sequence. -/
theorem c2_subscribe_gap_duplicate_free (mids : List (List String × Bool))
    (final : List String) (c : Nat) (hmids : ∀ x ∈ mids, x.2 = false)
    (hchain : List.Chain' (fun x y => x <+: y) ((mids ++ [(final, true)]).map Prod.fst))
    (_hc : c ≤ final.length) :
    subscribeRun c (mids ++ [(final, true)]) = final.drop c ∧
      (∀ mids2 : List (List String × Bool), (∀ x ∈ mids2, x.2 = false) →
        List.Chain' (fun x y => x <+: y) ((mids2 ++ [(final, true)]).map Prod.fst) →
        subscribeRun 0 (mids ++ [(final, true)]) =
          subscribeRun 0 (mids2 ++ [(final, true)])) := by
  constructor
  · exact subscribeRun_eq_drop mids final c hmids hchain
  · intro mids2 hmids2 hchain2
    rw [subscribeRun_eq_drop mids final 0 hmids hchain,
      subscribeRun_eq_drop mids2 final 0 hmids2 hchain2]

/-- Witness for claim C2 at a concrete run: snapshots [] then ["a"] (not
done) then ["a","b"] (done), cursor 1, final buffer ["a","b"]. -/
theorem c2_subscribe_gap_duplicate_free_witness :
    subscribeRun 1 ([([], false), (["a"], false)] ++ [(["a", "b"], true)]) =
        ["a", "b"].drop 1 ∧
      (∀ mids2 : List (List String × Bool), (∀ x ∈ mids2, x.2 = false) →
        List.Chain' (fun x y => x <+: y) ((mids2 ++ [(["a", "b"], true)]).map Prod.fst) →
        subscribeRun 0 ([([], false), (["a"], false)] ++ [(["a", "b"], true)]) =
          subscribeRun 0 (mids2 ++ [(["a", "b"], true)])) :=
  c2_subscribe_gap_duplicate_free [([], false), (["a"], false)] ["a", "b"] 1
    (by decide)
    (by
      show List.Chain' (fun x y => x <+: y) [[], ["a"], ["a", "b"]]
      exact List.chain'_cons.mpr ⟨⟨["a"], rfl⟩,
        List.chain'_cons.mpr ⟨⟨["b"], rfl⟩, List.chain'_singleton _⟩⟩)
    (by decide)

/-- Claim C10: `subscribe` is total over all integer cursors; a negative
cursor behaves exactly as cursor 0 (the source clamps with max(0, c)), and
on a job already done with buffer `b`, a cursor past the end of the buffer
yields nothing and terminates on the first snapshot, whatever would follow. -/
theorem c10_subscribe_total (c : Int) (b : List String)
    (rest : List (List String × Bool)) :
    (c < 0 → ∀ states, subscribe c states = subscribe 0 states) ∧
      ((b.length : Int) < c → subscribe c ((b, true) :: rest) = []) := by
  constructor
  · intro hneg states
    unfold subscribe
    rw [max_eq_left (le_of_lt hneg)]
    norm_num
  · intro hgt
    unfold subscribe
    have hc0 : (0 : Int) ≤ c := le_trans (Int.ofNat_nonneg b.length) (le_of_lt hgt)
    rw [max_eq_right hc0]
    show (if true = true then b.drop c.toNat else _) = []
    rw [if_pos rfl]
    apply List.drop_eq_nil_of_le
    have : (b.length : Int) < (c.toNat : Int) := by rwa [Int.toNat_of_nonneg hc0]
    exact le_of_lt (Int.ofNat_lt.mp this)

/-- Witness for claim C10: cursor -1 equals cursor 0 on a sample run, and
cursor 5 on a done job with a one-element buffer yields nothing. -/
theorem c10_subscribe_total_witness :
    subscribe (-1) [(["e"], true)] = subscribe 0 [(["e"], true)] ∧
      subscribe 5 ((["e"], true) :: []) = [] :=
  ⟨(c10_subscribe_total (-1) ["e"] []).1 (by decide) [(["e"], true)],
    (c10_subscribe_total 5 ["e"] []).2 (by decide)⟩

/-- State of `StreamHub` (stream_hub.py lines 56-78).  `jobs` is the
key-to-job dictionary (`self._jobs`), with jobs named by identifiers so
that object identity is expressible; insertion is cons and lookup is first
match, which agrees with a dictionary because a key is inserted only when
absent.  `nextId` supplies fresh job identities.  `spawned` is the log of
`asyncio.create_task(runner(job))` calls, one entry (key, job) per spawn. -/
structure HubState where
  jobs : List (String × Nat)
  nextId : Nat
  spawned : List (String × Nat)
deriving Repr, DecidableEq

/-- Dictionary lookup `self._jobs.get(key)`. -/
def lookupKey (l : List (String × Nat)) (k : String) : Option Nat :=
  (l.find? (fun p => p.1 == k)).map Prod.snd

/-- `StreamHub.get_or_create` (stream_hub.py lines 63-78).  The whole body
runs under `self._lock`, hence is one atomic state transformer: look the
key up; if present return the existing job without spawning; otherwise
construct a job, register it under the key, spawn the runner on it, and
return it. -/
def get_or_create (h : HubState) (k : String) : HubState × Nat :=
  match lookupKey h.jobs k with
  | some j => (h, j)
  | none =>
    ({ jobs := (k, h.nextId) :: h.jobs, nextId := h.nextId + 1,
       spawned := (k, h.nextId) :: h.spawned }, h.nextId)

/-- A sequence of `get_or_create` calls (the hub mutex serialises
concurrent callers, so any interleaving is some such sequence); returns the
final hub state and the job returned to each caller in order. -/
def runCalls : HubState → List String → HubState × List Nat
  | h, [] => (h, [])
  | h, k :: ks =>
    ((runCalls (get_or_create h k).1 ks).1,
      (get_or_create h k).2 :: (runCalls (get_or_create h k).1 ks).2)

/-- Number of runner spawns recorded for key `k`. -/
def spawnCount (h : HubState) (k : String) : Nat :=
  (h.spawned.filter (fun p => p.1 == k)).length

/-- The jobs returned to exactly those callers that asked for key `k`. -/
def returnsFor (ks : List String) (rets : List Nat) (k : String) : List Nat :=
  ((ks.zip rets).filter (fun p => p.1 == k)).map Prod.snd

/-- Once a job is registered for `k`, any further sequence of calls leaves
its registration and spawn count unchanged and returns that same job to
every caller asking for `k`. -/
theorem runCalls_registered (ks : List String) (h : HubState) (k : String) (j : Nat)
    (hreg : lookupKey h.jobs k = some j) :
    lookupKey (runCalls h ks).1.jobs k = some j ∧
      spawnCount (runCalls h ks).1 k = spawnCount h k ∧
      returnsFor ks (runCalls h ks).2 k = List.replicate (ks.count k) j := by
  induction ks generalizing h with
  | nil => simp [runCalls, returnsFor, hreg]
  | cons k1 ks ih =>
    by_cases hcase : ∃ j1, lookupKey h.jobs k1 = some j1
    · obtain ⟨j1, hj1⟩ := hcase
      have hgoc : get_or_create h k1 = (h, j1) := by simp [get_or_create, hj1]
      obtain ⟨ha, hb, hc⟩ := ih h hreg
      refine ⟨by simpa [runCalls, hgoc] using ha, by simpa [runCalls, hgoc] using hb, ?_⟩
      by_cases hk : k1 = k
      · subst hk
        have hj1j : j1 = j := by
          rw [hreg] at hj1
          exact (Option.some_injective _ hj1).symm
        subst hj1j
        simpa [runCalls, hgoc, returnsFor, List.count_cons, List.replicate_succ] using hc
      · simpa [runCalls, hgoc, returnsFor, List.count_cons, hk] using hc
    · push_neg at hcase
      have hnone : lookupKey h.jobs k1 = none := by
        cases hl : lookupKey h.jobs k1 with
        | none => rfl
        | some j1 => exact absurd hl (hcase j1)
      have hk : k1 ≠ k := by
        intro he
        rw [he, hreg] at hnone
        cases hnone
      have hgoc : get_or_create h k1 =
          ({ jobs := (k1, h.nextId) :: h.jobs, nextId := h.nextId + 1,
             spawned := (k1, h.nextId) :: h.spawned }, h.nextId) := by
        simp [get_or_create, hnone]
      have hreg2 : lookupKey ((k1, h.nextId) :: h.jobs) k = some j := by
        simpa [lookupKey, List.find?_cons, hk] using hreg
      obtain ⟨ha, hb, hc⟩ :=
        ih { jobs := (k1, h.nextId) :: h.jobs, nextId := h.nextId + 1,
             spawned := (k1, h.nextId) :: h.spawned } hreg2
      refine ⟨by simpa [runCalls, hgoc] using ha, ?_, ?_⟩
      · have hsp : spawnCount
            { jobs := (k1, h.nextId) :: h.jobs, nextId := h.nextId + 1,
              spawned := (k1, h.nextId) :: h.spawned } k = spawnCount h k := by
          simp [spawnCount, hk]
        rw [runCalls, hgoc]
        simpa [hsp] using hb
      · rw [runCalls, hgoc]
        simpa [returnsFor, List.count_cons, hk] using hc

/-- Claim C1: for every key, any number of `get_or_create` calls spawns the
runner exactly once: starting from a hub where the key is absent, a call
sequence containing the key increases its spawn count by exactly one, and
there is a single job, registered under the key, that every call with that
key returned (whether the job was still running or already done; job state
does not enter `get_or_create`). -/
theorem c1_get_or_create_single_spawn (h : HubState) (ks : List String) (k : String)
    (habs : lookupKey h.jobs k = none) (hmem : k ∈ ks) :
    spawnCount (runCalls h ks).1 k = spawnCount h k + 1 ∧
      ∃ j, lookupKey (runCalls h ks).1.jobs k = some j ∧
        returnsFor ks (runCalls h ks).2 k = List.replicate (ks.count k) j := by
  induction ks generalizing h with
  | nil => cases hmem
  | cons k1 ks ih =>
    by_cases hk : k1 = k
    · subst hk
      have hgoc : get_or_create h k1 =
          ({ jobs := (k1, h.nextId) :: h.jobs, nextId := h.nextId + 1,
             spawned := (k1, h.nextId) :: h.spawned }, h.nextId) := by
        simp [get_or_create, habs]
      have hreg : lookupKey ((k1, h.nextId) :: h.jobs) k1 = some h.nextId := by
        simp [lookupKey, List.find?_cons]
      obtain ⟨ha, hb, hc⟩ :=
        runCalls_registered ks
          { jobs := (k1, h.nextId) :: h.jobs, nextId := h.nextId + 1,
            spawned := (k1, h.nextId) :: h.spawned } k1 h.nextId hreg
      constructor
      · rw [runCalls, hgoc]
        rw [hb]
        simp [spawnCount]
      · refine ⟨h.nextId, by simpa [runCalls, hgoc] using ha, ?_⟩
        rw [runCalls, hgoc]
        simpa [returnsFor, List.count_cons, List.replicate_succ] using hc
    · have hmem2 : k ∈ ks := by
        cases List.mem_cons.mp hmem with
        | inl he => exact absurd he.symm hk
        | inr hm => exact hm
      by_cases hcase : ∃ j1, lookupKey h.jobs k1 = some j1
      · obtain ⟨j1, hj1⟩ := hcase
        have hgoc : get_or_create h k1 = (h, j1) := by simp [get_or_create, hj1]
        obtain ⟨ha, j, hb, hc⟩ := ih h habs hmem2
        refine ⟨by simpa [runCalls, hgoc] using ha,
          j, by simpa [runCalls, hgoc] using hb, ?_⟩
        rw [runCalls, hgoc]
        simpa [returnsFor, List.count_cons, hk] using hc
      · push_neg at hcase
        have hnone : lookupKey h.jobs k1 = none := by
          cases hl : lookupKey h.jobs k1 with
          | none => rfl
          | some j1 => exact absurd hl (hcase j1)
        have hgoc : get_or_create h k1 =
            ({ jobs := (k1, h.nextId) :: h.jobs, nextId := h.nextId + 1,
               spawned := (k1, h.nextId) :: h.spawned }, h.nextId) := by
          simp [get_or_create, hnone]
        have habs2 : lookupKey ((k1, h.nextId) :: h.jobs) k = none := by
          simpa [lookupKey, List.find?_cons, hk] using habs
        obtain ⟨ha, j, hb, hc⟩ :=
          ih { jobs := (k1, h.nextId) :: h.jobs, nextId := h.nextId + 1,
               spawned := (k1, h.nextId) :: h.spawned } habs2 hmem2
        refine ⟨?_, j, by simpa [runCalls, hgoc] using hb, ?_⟩
        · rw [runCalls, hgoc]
          rw [ha]
          simp [spawnCount, hk]
        · rw [runCalls, hgoc]
          simpa [returnsFor, List.count_cons, hk] using hc

/-- Witness for claim C1: an empty hub, calls with keys "a", "b", "a";
the spawn count for "a" rises from 0 to 1 and both "a" calls get one job. -/
theorem c1_get_or_create_single_spawn_witness :
    spawnCount (runCalls ⟨[], 0, []⟩ ["a", "b", "a"]).1 "a" =
        spawnCount (⟨[], 0, []⟩ : HubState) "a" + 1 ∧
      ∃ j, lookupKey (runCalls ⟨[], 0, []⟩ ["a", "b", "a"]).1.jobs "a" = some j ∧
        returnsFor ["a", "b", "a"] (runCalls ⟨[], 0, []⟩ ["a", "b", "a"]).2 "a" =
          List.replicate (["a", "b", "a"].count "a") j :=
  c1_get_or_create_single_spawn ⟨[], 0, []⟩ ["a", "b", "a"] "a" (by decide) (by decide)

/-- Python string slicing `s[:n]` (by code points). -/
def truncateMsg (n : Nat) (s : String) : String :=
  (s.toList.take n).asString

/-- A source reference extracted from a search tool output (main.py lines
254-257): a title/url pair from the bold-title pattern, or a url-only entry
(`title = none` models the absent "title" key). -/
structure SourceRef where
  title : Option String
  url : String
deriving Repr, DecidableEq

/-- The closed set of typed output events emitted by the SSE generators of
main.py.  Each Python event is one `data:` JSON line; the embedding keeps
the typed payload.  `R` is the type of the structured result object. -/
inductive Event (R : Type) where
  | token (content node agent : String)
  | llm_start (node agent : String)
  | tool_start (name node inp : String)
  | tool_end (name node : String) (outputLength : Nat) (sources : List SourceRef)
  | node_start (node chain : String)
  | node_end (node chain : String)
  | result (data : R)
  | error (message : String)
  | done
deriving Repr, DecidableEq

/-- One raw trace record of `graph.astream_events(version="v2")` as read by
main.py.  `D` is the type of Python dict payloads.  `chunkContent` is the
content of `data.chunk` when the record carries one (`none` otherwise; the
code treats a falsy chunk and a falsy content identically, both yield
nothing, so `some ""` and `none` behave alike).  `toolInput` and
`toolOutput` are the stringified `data.input` / `data.output`, with `""`
standing for a falsy value.  `outputDict` is `data.output` when that value
is a dict (`none` when absent or not a dict, which the observer treats
identically). -/
structure Record (D : Type) where
  event : String
  name : Option String
  langgraphNode : Option String
  topNode : Option String
  parentIds : List String
  chunkContent : Option String
  toolInput : String
  toolOutput : String
  outputDict : Option D
deriving Repr, DecidableEq

/-- Python `a or b` on an optional string, where both `None` and `""` are
falsy (main.py lines 187-191, 209, 218, 228). -/
def orFalsy (a : Option String) (b : String) : String :=
  match a with
  | some s => if s = "" then b else s
  | none => b

/-- Python truthiness of an optional string. -/
def truthy (a : Option String) : Bool :=
  match a with
  | some s => !(s == "")
  | none => false

/-- `node = metadata.get("langgraph_node") or event.get("node") or
"unknown"` (main.py lines 187-191). -/
def nodeOf {D : Type} (r : Record D) : String :=
  orFalsy r.langgraphNode (orFalsy r.topNode "unknown")

/-- Python regex whitespace class over ASCII (space, tab, newline, carriage
return, vertical tab, form feed). -/
def pySpace (c : Char) : Bool :=
  c == ' ' || c == '\t' || c == '\n' || c == '\r' || c == '\x0b' || c == '\x0c'

/-- Match of `https?://` at the head of the text, returning the scheme
length; the regex alternative `https?` matches "https" when present, else
"http", each followed by "://". -/
def schemeAt (l : List Char) : Option Nat :=
  if List.isPrefixOf "https://".toList l then some 8
  else if List.isPrefixOf "http://".toList l then some 7
  else none

/-- Scan for the non-overlapping matches of `https?://[^\s\n]+` (main.py
lines 249-250): at a position where the scheme matches and at least one
further non-whitespace character follows, the greedy match is the maximal
non-whitespace run, and scanning resumes after it; otherwise the scan
advances one character.  `fuel` bounds the iterations; every step consumes
at least one character, so an initial fuel of the text length never runs
out. -/
def findUrlsGo (fuel : Nat) (l : List Char) : List (List Char) :=
  match fuel, l with
  | 0, _ => []
  | _, [] => []
  | fuel + 1, c :: rest =>
    match schemeAt (c :: rest) with
    | some n =>
      let run := (c :: rest).takeWhile (fun ch => !(pySpace ch))
      if n < run.length then
        run :: findUrlsGo fuel ((c :: rest).dropWhile (fun ch => !(pySpace ch)))
      else findUrlsGo fuel rest
    | none => findUrlsGo fuel rest

/-- `re.findall(url_pattern, output_str)` of main.py line 250. -/
def findUrls (l : List Char) : List (List Char) :=
  findUrlsGo l.length l

/-- Try the title pattern of main.py line 252 anchored at the head of the
text: two asterisks, a non-empty run of non-asterisk characters (the
greedy `[^*]+` can only succeed on the maximal such run, since any shorter
run is followed by a non-asterisk), two asterisks, a newline, a non-empty
run of whitespace (greedy `\s+` can only succeed on the maximal run, since
the url must start with a non-whitespace character), then a url as in
`findUrlsGo`.  Returns (title group, url group, rest after the match). -/
def titleMatchAt : List Char → Option (List Char × List Char × List Char)
  | '*' :: '*' :: rest =>
    let t := rest.takeWhile (fun ch => !(ch == '*'))
    if t.isEmpty then none
    else
      match rest.dropWhile (fun ch => !(ch == '*')) with
      | '*' :: '*' :: '\n' :: r3 =>
        let ws := r3.takeWhile pySpace
        if ws.isEmpty then none
        else
          let r4 := r3.dropWhile pySpace
          match schemeAt r4 with
          | some n =>
            let run := r4.takeWhile (fun ch => !(pySpace ch))
            if n < run.length then
              some (t, run, r4.dropWhile (fun ch => !(pySpace ch)))
            else none
          | none => none
      | _ => none
  | _ => none

/-- Scan for the non-overlapping matches of the title pattern (main.py
lines 252-253), as `findUrlsGo` does for urls. -/
def findTitlesGo (fuel : Nat) (l : List Char) : List (List Char × List Char)  :=
  match fuel, l with
  | 0, _ => []
  | _, [] => []
  | fuel + 1, c :: rest =>
    match titleMatchAt (c :: rest) with
    | some (t, u, rest2) => (t, u) :: findTitlesGo fuel rest2
    | none => findTitlesGo fuel rest

/-- `re.findall(title_pattern, output_str)` of main.py line 253. -/
def findTitles (l : List Char) : List (List Char × List Char) :=
  findTitlesGo l.length l

/-- Python `str.strip()`: remove leading and trailing whitespace. -/
def stripWs (l : List Char) : List Char :=
  ((l.dropWhile pySpace).reverse.dropWhile pySpace).reverse

/-- Python `str.replace(pat, "")` for a non-empty pattern: delete the
non-overlapping occurrences of `pat`, scanning left to right.  `fuel`
bounds the iterations as in `findUrlsGo`. -/
def removeSeqGo (fuel : Nat) (pat : List Char) (l : List Char) : List Char :=
  match fuel, l with
  | 0, l => l
  | _, [] => []
  | fuel + 1, c :: rest =>
    if List.isPrefixOf pat (c :: rest) then
      removeSeqGo fuel pat ((c :: rest).drop pat.length)
    else c :: removeSeqGo fuel pat rest

/-- Python `str.replace(pat, "")`. -/
def removeSeq (pat : List Char) (l : List Char) : List Char :=
  removeSeqGo l.length pat l

/-- The characters stripped from the right of a url by `clean_url`
(main.py line 247): right parenthesis, period, comma, semicolon, right
bracket, right curly brace, greater-than, double quote, single quote. -/
def urlStripChars : List Char :=
  [')', '.', ',', ';', ']', Char.ofNat 125, '>', Char.ofNat 34, Char.ofNat 39]

/-- Python `str.rstrip(chars)`: remove trailing characters belonging to the
set. -/
def rstripSet (s : List Char) (l : List Char) : List Char :=
  (l.reverse.dropWhile (fun ch => s.contains ch)).reverse

/-- `clean_url` of main.py lines 242-247: strip surrounding whitespace,
delete the two-character sequences backslash-n and backslash-t (escaped
newlines and tabs from stringified tool outputs), then strip the trailing
punctuation and quote characters. -/
def clean_url (l : List Char) : List Char :=
  rstripSet urlStripChars
    (removeSeq ['\\', 't'] (removeSeq ['\\', 'n'] (stripWs l)))

/-- Source extraction for a `web_search` tool end (main.py lines 239-257):
if the title pattern matched, the first eight matches give title/url pairs
(titles stripped of whitespace, urls cleaned); otherwise the first eight
plain url matches give url-only entries. -/
def extractSources (output : List Char) : List SourceRef :=
  let titleMatches := findTitles output
  let urls := findUrls output
  if !titleMatches.isEmpty then
    (titleMatches.take 8).map
      (fun p => { title := some (stripWs p.1).asString, url := (clean_url p.2).asString })
  else if !urls.isEmpty then
    (urls.take 8).map (fun u => { title := none, url := (clean_url u).asString })
  else []

/-- The translation of one trace record into typed output events (main.py
lines 182-289): the body of the `async for` loop of `stream_agent_events`,
yielding zero or one events per record. -/
def translateRecord (R : Type) {D : Type} (r : Record D) : List (Event R) :=
  if r.event = "on_chat_model_stream" then
    match r.chunkContent with
    | some c => if c = "" then [] else [Event.token c (nodeOf r) (orFalsy r.name "unknown")]
    | none => []
  else if r.event = "on_chat_model_start" then
    [Event.llm_start (nodeOf r) (orFalsy r.name "unknown")]
  else if r.event = "on_tool_start" then
    [Event.tool_start (orFalsy r.name "unknown") (nodeOf r)
      (if r.toolInput = "" then "" else truncateMsg 200 r.toolInput)]
  else if r.event = "on_tool_end" then
    [Event.tool_end (orFalsy r.name "unknown") (nodeOf r) r.toolOutput.length
      (if r.name = some "web_search" ∧ r.toolOutput ≠ "" then
        extractSources r.toolOutput.toList
      else [])]
  else if r.event = "on_chain_start" then
    if truthy r.langgraphNode || orFalsy r.name "" == "LangGraph" then
      [Event.node_start (nodeOf r) (orFalsy r.name "")]
    else []
  else if r.event = "on_chain_end" then
    if truthy r.langgraphNode || orFalsy r.name "" == "LangGraph" then
      [Event.node_end (nodeOf r) (orFalsy r.name "")]
    else []
  else []

/-- `stream_agent_events` (main.py lines 154-305) over an engine run that
yields `records` and then, when `failure = some msg`, raises with message
`msg`: the translated events in order, then on failure exactly one error
event with the message truncated to 500 characters, then (when
`includeDone`) the completion signal.  A failure part-way through a run is
the same function applied to the prefix of records delivered before the
raise. -/
def stream_agent_events (R : Type) {D : Type} (records : List (Record D))
    (failure : Option String) (includeDone : Bool) : List (Event R) :=
  (records.map (translateRecord R)).flatten ++
    match failure with
    | none => if includeDone then [Event.done] else []
    | some msg =>
      Event.error (truncateMsg 500 msg) :: (if includeDone then [Event.done] else [])

/-- Root completion test of `observe_event` (main.py lines 330-336): an
`on_chain_end` record with falsy `parent_ids` carrying a dict output. -/
def isRootCompletion {D : Type} (r : Record D) : Bool :=
  r.event == "on_chain_end" && r.parentIds.isEmpty && r.outputDict.isSome

/-- `observe_event` (main.py lines 330-336) as a state update on the
captured `final_output`: an `on_chain_end` record with falsy `parent_ids`
whose output is a dict overwrites the captured value; every other record
leaves it alone. -/
def observe_event {D : Type} (acc : Option D) (r : Record D) : Option D :=
  if r.event = "on_chain_end" ∧ r.parentIds = [] then
    match r.outputDict with
    | some d => some d
    | none => acc
  else acc

/-- The `final_output` captured after `observe_event` ran on every record
in order (the observer is invoked on each record before translation and
never raises, so on the whole record list). -/
def finalOutputOf {D : Type} (records : List (Record D)) : Option D :=
  records.foldl observe_event none

/-- The result-shaping tail of `stream_with_final_result` (main.py lines
348-364): when an extractor is registered and a final output was captured,
apply the extractor; a structured value yields one result event, `None`
yields nothing, and a raised exception (`Except.error`) yields one error
event with the message truncated to 500 characters. -/
def extractionEvents (R : Type) {D : Type} (records : List (Record D))
    (extract : Option (D → Except String (Option R))) : List (Event R) :=
  match extract, finalOutputOf records with
  | some f, some o =>
    match f o with
    | Except.ok (some r) => [Event.result r]
    | Except.ok none => []
    | Except.error e => [Event.error (truncateMsg 500 e)]
  | _, _ => []

/-- `stream_with_final_result` (main.py lines 308-367): stream the
translated events without a completion signal, then the extraction events,
then always exactly one completion signal. -/
def stream_with_final_result (R : Type) {D : Type} (records : List (Record D))
    (failure : Option String)
    (extract : Option (D → Except String (Option R))) : List (Event R) :=
  stream_agent_events R records failure false ++
    extractionEvents R records extract ++ [Event.done]

/-- The translator emits only progress events: never an error, never a
result, never a done. -/
theorem translateRecord_progress_only (R : Type) {D : Type} (r : Record D) :
    ∀ e ∈ translateRecord R r,
      (∀ m, e ≠ Event.error m) ∧ (∀ x, e ≠ Event.result x) ∧ e ≠ Event.done := by
  intro e he
  unfold translateRecord at he
  split at he
  · split at he
    · split at he
      · cases he
      · rw [List.mem_singleton] at he
        subst he
        exact ⟨fun m h => Event.noConfusion h, fun x h => Event.noConfusion h,
          fun h => Event.noConfusion h⟩
    · cases he
  · split at he
    · rw [List.mem_singleton] at he
      subst he
      exact ⟨fun m h => Event.noConfusion h, fun x h => Event.noConfusion h,
        fun h => Event.noConfusion h⟩
    · split at he
      · rw [List.mem_singleton] at he
        subst he
        exact ⟨fun m h => Event.noConfusion h, fun x h => Event.noConfusion h,
          fun h => Event.noConfusion h⟩
      · split at he
        · rw [List.mem_singleton] at he
          subst he
          exact ⟨fun m h => Event.noConfusion h, fun x h => Event.noConfusion h,
            fun h => Event.noConfusion h⟩
        · split at he
          · split at he
            · rw [List.mem_singleton] at he
              subst he
              exact ⟨fun m h => Event.noConfusion h, fun x h => Event.noConfusion h,
                fun h => Event.noConfusion h⟩
            · cases he
          · split at he
            · split at he
              · rw [List.mem_singleton] at he
                subst he
                exact ⟨fun m h => Event.noConfusion h, fun x h => Event.noConfusion h,
                  fun h => Event.noConfusion h⟩
              · cases he
            · cases he

/-- `find?` returns the head of the filtered list. -/
theorem find?_eq_head_filter {α : Type} (p : α → Bool) (l : List α) :
    l.find? p = (l.filter p).head? := by
  induction l with
  | nil => rfl
  | cons a l ih =>
    rw [List.find?_cons, List.filter_cons]
    cases h : p a with
    | true => rfl
    | false => exact ih

/-- The fold of `observe_event` captures the output of the last root
completion, whatever the starting accumulator. -/
theorem foldl_observe_event {D : Type} (records : List (Record D)) (acc : Option D) :
    records.foldl observe_event acc =
      match records.reverse.find? isRootCompletion with
      | some rec => rec.outputDict
      | none => acc := by
  induction records generalizing acc with
  | nil => rfl
  | cons r rs ih =>
    rw [List.foldl_cons, ih (observe_event acc r), List.reverse_cons, List.find?_append]
    cases hfind : rs.reverse.find? isRootCompletion with
    | some x => rfl
    | none =>
      show observe_event acc r = _
      by_cases h1 : r.event = "on_chain_end" ∧ r.parentIds = []
      · cases ho : r.outputDict with
        | some d =>
          have hroot : isRootCompletion r = true := by
            simp [isRootCompletion, h1.1, h1.2, ho]
          simp [observe_event, h1, ho, List.find?_cons, hroot, Option.or]
        | none =>
          have hroot : isRootCompletion r = false := by
            simp [isRootCompletion, ho]
          simp [observe_event, h1, ho, List.find?_cons, hroot, Option.or]
      · have hroot : isRootCompletion r = false := by
          rw [not_and_or] at h1
          cases h1 with
          | inl h2 => simp [isRootCompletion, h2]
          | inr h2 =>
            have : r.parentIds.isEmpty = false := by
              cases hp : r.parentIds with
              | nil => exact absurd rfl (hp ▸ h2)
              | cons a l => rfl
            simp [isRootCompletion, this]
        have h1' : ¬(r.event = "on_chain_end" ∧ r.parentIds = []) := h1
        simp [observe_event, h1', List.find?_cons, hroot, Option.or]

/-- The extraction tail holds at most one event. -/
theorem extractionEvents_length_le_one (R : Type) {D : Type} (records : List (Record D))
    (extract : Option (D → Except String (Option R))) :
    (extractionEvents R records extract).length ≤ 1 := by
  unfold extractionEvents
  split
  · split <;> simp
  · simp

/-- Truncation to `n` characters yields at most `n` characters. -/
theorem truncateMsg_length_le (n : Nat) (s : String) : (truncateMsg n s).length ≤ n := by
  unfold truncateMsg
  rw [List.length_asString, List.length_take]
  exact min_le_left n s.toList.length

/-- Claim C3 counterexample: when the engine run delivers the root
completion record and then raises, and the registered extractor succeeds,
the delivered sequence is error, result, done: the error event is not
immediately followed by the done event. -/
theorem c3_error_then_result_counterexample :
    stream_with_final_result Nat
        [⟨"on_chain_end", none, none, none, [], none, "", "", some 0⟩]
        (some "boom") (some fun _ => Except.ok (some 42)) =
      [Event.error "boom", Event.result 42, Event.done] ∧
      (stream_with_final_result Nat
          [⟨"on_chain_end", none, none, none, [], none, "", "", some 0⟩]
          (some "boom") (some fun _ => Except.ok (some 42))).get? 1 ≠
        some Event.done := by
  constructor
  · rfl
  · intro h
    rw [show (stream_with_final_result Nat
        [⟨"on_chain_end", none, none, none, [], none, "", "", some 0⟩]
        (some "boom") (some fun _ => Except.ok (some 42))) =
          [Event.error "boom", Event.result 42, Event.done] from rfl] at h
    cases h

/-- Claim C3, amended: if the engine iteration raises, the delivered
sequence is the translated progress events (which are never error, result
or done events), then exactly one error event whose message is the
exception text truncated to at most 500 characters, then at most one
extraction-derived event (present only when a root completion with a dict
output was observed before the failure), then exactly one done event. -/
theorem c3_engine_failure_terminal (R : Type) {D : Type} (records : List (Record D))
    (msg : String) (extract : Option (D → Except String (Option R))) :
    stream_with_final_result R records (some msg) extract =
        (records.map (translateRecord R)).flatten ++
          Event.error (truncateMsg 500 msg) ::
            (extractionEvents R records extract ++ [Event.done]) ∧
      (truncateMsg 500 msg).length ≤ 500 ∧
      (extractionEvents R records extract).length ≤ 1 ∧
      (finalOutputOf records = none → extractionEvents R records extract = []) ∧
      (∀ e ∈ (records.map (translateRecord R)).flatten,
        (∀ m, e ≠ Event.error m) ∧ e ≠ Event.done) := by
  refine ⟨?_, truncateMsg_length_le 500 msg, extractionEvents_length_le_one R records extract,
    ?_, ?_⟩
  · unfold stream_with_final_result stream_agent_events
    simp only [List.append_assoc]
    rfl
  · intro hnone
    simp [extractionEvents, hnone]
  · intro e he
    have hjoin := List.mem_flatten.mp he
    obtain ⟨l, hl, hel⟩ := hjoin
    obtain ⟨r, _, rfl⟩ := List.mem_map.mp hl
    obtain ⟨h1, _, h3⟩ := translateRecord_progress_only R r e hel
    exact ⟨h1, h3⟩

/-- Witness for claim C3 (amended) on an engine that raises "boom" before
any record: the stream is exactly one error then one done. -/
theorem c3_engine_failure_terminal_witness :
    stream_with_final_result Nat ([] : List (Record Nat)) (some "boom") none =
        [Event.error "boom", Event.done] ∧
      extractionEvents Nat ([] : List (Record Nat)) none = [] := by
  refine ⟨?_, (@c3_engine_failure_terminal Nat Nat [] "boom" none).2.2.2.1 rfl⟩
  have h := (@c3_engine_failure_terminal Nat Nat [] "boom" none).1
  rw [show truncateMsg 500 "boom" = "boom" from rfl] at h
  simpa using h

/-- Claim C6: the structured result is reconstructed from the trace, never
fetched by a second run: the stream is the translated progress events, then
the extraction events, then done; the extraction part has at most one
event; it is empty when no root completion with a dict output was observed
or when the extractor returns `none`; it is the single result event
carrying the extractor applied to the captured output otherwise; and when
exactly one root completion record exists, the captured output is that
record's output dict. -/
theorem c6_result_reconstructed (R : Type) {D : Type} (records : List (Record D))
    (f : D → Except String (Option R)) :
    stream_with_final_result R records none (some f) =
        (records.map (translateRecord R)).flatten ++
          (extractionEvents R records (some f) ++ [Event.done]) ∧
      (extractionEvents R records (some f)).length ≤ 1 ∧
      (finalOutputOf records = none → extractionEvents R records (some f) = []) ∧
      (∀ o, finalOutputOf records = some o → f o = Except.ok none →
        extractionEvents R records (some f) = []) ∧
      (∀ o r, finalOutputOf records = some o → f o = Except.ok (some r) →
        extractionEvents R records (some f) = [Event.result r]) ∧
      (∀ rec : Record D, records.filter isRootCompletion = [rec] →
        finalOutputOf records = rec.outputDict) := by
  refine ⟨?_, extractionEvents_length_le_one R records (some f), ?_, ?_, ?_, ?_⟩
  · unfold stream_with_final_result stream_agent_events
    simp only [List.append_assoc]
    rfl
  · intro hnone
    simp [extractionEvents, hnone]
  · intro o ho hf
    simp [extractionEvents, ho, hf]
  · intro o r ho hf
    simp [extractionEvents, ho, hf]
  · intro rec hfilter
    unfold finalOutputOf
    rw [foldl_observe_event records none, find?_eq_head_filter, List.filter_reverse,
      hfilter]
    rfl

/-- Witness for claim C6: a single root completion with output 7 and the
extractor adding one yields the result event 8, after no progress events
and before done. -/
theorem c6_result_reconstructed_witness :
    extractionEvents Nat [⟨"on_chain_end", none, none, none, [], none, "", "", some 7⟩]
        (some fun d => Except.ok (some (d + 1))) = [Event.result 8] ∧
      stream_with_final_result Nat
          [⟨"on_chain_end", none, none, none, [], none, "", "", some 7⟩]
          none (some fun d => Except.ok (some (d + 1))) =
        ([⟨"on_chain_end", none, none, none, [], none, "", "", some 7⟩].map
            (translateRecord Nat)).flatten ++
          (extractionEvents Nat [⟨"on_chain_end", none, none, none, [], none, "", "", some 7⟩]
            (some fun d => Except.ok (some (d + 1))) ++ [Event.done]) ∧
      finalOutputOf [⟨"on_chain_end", none, none, none, [], none, "", "", some 7⟩] =
        Record.outputDict ⟨"on_chain_end", none, none, none, [], none, "", "", some 7⟩ := by
  refine ⟨(c6_result_reconstructed Nat
      [⟨"on_chain_end", none, none, none, [], none, "", "", some 7⟩]
      (fun d => Except.ok (some (d + 1)))).2.2.2.2.1 7 8 rfl rfl, ?_, ?_⟩
  · exact (c6_result_reconstructed Nat
      [⟨"on_chain_end", none, none, none, [], none, "", "", some 7⟩]
      (fun d => Except.ok (some (d + 1)))).1
  · exact (c6_result_reconstructed Nat
      [⟨"on_chain_end", none, none, none, [], none, "", "", some 7⟩]
      (fun d => Except.ok (some (d + 1)))).2.2.2.2.2
        ⟨"on_chain_end", none, none, none, [], none, "", "", some 7⟩ rfl

/-- Claim C7: if the extractor raises after a successful terminal
completion, the stream is the translated progress events, then one error
event with the message truncated to at most 500 characters in place of the
result event, then the single done event; the translated progress part is a
prefix of the stream whatever extractor is registered, so no progress is
retracted. -/
theorem c7_extraction_failure (R : Type) {D : Type} (records : List (Record D))
    (f : D → Except String (Option R)) (o : D) (e : String)
    (hfo : finalOutputOf records = some o) (hf : f o = Except.error e) :
    stream_with_final_result R records none (some f) =
        (records.map (translateRecord R)).flatten ++
          [Event.error (truncateMsg 500 e), Event.done] ∧
      (truncateMsg 500 e).length ≤ 500 ∧
      (∀ g : D → Except String (Option R),
        (records.map (translateRecord R)).flatten <+:
          stream_with_final_result R records none (some g)) := by
  refine ⟨?_, truncateMsg_length_le 500 e, ?_⟩
  · have hext : extractionEvents R records (some f) =
        [Event.error (truncateMsg 500 e)] := by
      simp [extractionEvents, hfo, hf]
    unfold stream_with_final_result
    rw [hext]
    unfold stream_agent_events
    simp only [List.append_assoc]
    rfl
  · intro g
    unfold stream_with_final_result stream_agent_events
    simp only [List.append_assoc]
    exact List.prefix_append _ _

/-- Witness for claim C7: a root completion with output 0 and an extractor
that raises "bad" yields error "bad" then done. -/
theorem c7_extraction_failure_witness :
    stream_with_final_result Nat
        [⟨"on_chain_end", none, none, none, [], none, "", "", some 0⟩]
        none (some fun _ => (Except.error "bad" : Except String (Option Nat))) =
      ([⟨"on_chain_end", none, none, none, [], none, "", "", some 0⟩].map
          (translateRecord Nat)).flatten ++
        [Event.error (truncateMsg 500 "bad"), Event.done] := by
  exact (c7_extraction_failure Nat
    [⟨"on_chain_end", none, none, none, [], none, "", "", some 0⟩]
    (fun _ => Except.error "bad") 0 "bad" rfl rfl).1

/-- The head surviving a `dropWhile` falsifies the predicate. -/
theorem head?_dropWhile_negative {α : Type} (p : α → Bool) (l : List α) (c : α)
    (h : (l.dropWhile p).head? = some c) : p c = false := by
  induction l with
  | nil => cases h
  | cons a l ih =>
    rw [List.dropWhile_cons] at h
    by_cases hp : p a = true
    · rw [if_pos hp] at h
      exact ih h
    · rw [if_neg hp] at h
      cases h
      exact Bool.not_eq_true _ |>.mp hp

/-- The last character left by `rstripSet` is outside the stripped set. -/
theorem rstripSet_getLast_not_mem (s l : List Char) (c : Char)
    (h : (rstripSet s l).getLast? = some c) : s.contains c = false := by
  unfold rstripSet at h
  rw [List.getLast?_reverse] at h
  exact head?_dropWhile_negative _ _ _ h

/-- What `extractSources` guarantees about every output: at most eight
entries, every url is a cleaned url (so it never ends in a stripped
punctuation or quote character), and the entries carry a title exactly when
the title pattern matched somewhere in the output. -/
theorem extractSources_spec (output : List Char) :
    (extractSources output).length ≤ 8 ∧
      (∀ s ∈ extractSources output, ∃ u, s.url = (clean_url u).asString) ∧
      (∀ s ∈ extractSources output, s.title.isSome = !(findTitles output).isEmpty) := by
  unfold extractSources
  dsimp only
  split
  · rename_i hcond
    refine ⟨?_, ?_, ?_⟩
    · rw [List.length_map, List.length_take]
      exact min_le_left _ _
    · intro s hs
      obtain ⟨p, _, rfl⟩ := List.mem_map.mp hs
      exact ⟨p.2, rfl⟩
    · intro s hs
      obtain ⟨p, _, rfl⟩ := List.mem_map.mp hs
      simp only [Option.isSome_some]
      exact hcond.symm
  · split
    · rename_i hcond1 hcond2
      refine ⟨?_, ?_, ?_⟩
      · rw [List.length_map, List.length_take]
        exact min_le_left _ _
      · intro s hs
        obtain ⟨u, _, rfl⟩ := List.mem_map.mp hs
        exact ⟨u, rfl⟩
      · intro s hs
        obtain ⟨u, _, rfl⟩ := List.mem_map.mp hs
        simp only [Option.isSome_none]
        rw [Bool.not_eq_true] at hcond1
        exact hcond1.symm
    · refine ⟨by decide, ?_, ?_⟩
      · intro s hs
        cases hs
      · intro s hs
        cases hs

/-- Claim C9: every translated tool_start event carries the tool name and
an input preview of at most 200 characters; every translated tool_end event
carries a sources list of at most eight entries, each url stripped of
trailing punctuation and quotes, entries carrying titles exactly when the
bold-title pattern matched (url-only otherwise); and on the sample output
containing "...https://example.com..." the extracted source is the url-only
reference to https://example.com. -/
theorem c9_tool_event_payloads (R : Type) {D : Type} (r : Record D) :
    (r.event = "on_tool_start" →
      ∃ inp, translateRecord R r =
          [Event.tool_start (orFalsy r.name "unknown") (nodeOf r) inp] ∧
        inp.length ≤ 200) ∧
      (r.event = "on_tool_end" →
        ∃ sources, translateRecord R r =
            [Event.tool_end (orFalsy r.name "unknown") (nodeOf r)
              r.toolOutput.length sources] ∧
          sources.length ≤ 8 ∧
          (∀ s ∈ sources, ∀ c, s.url.toList.getLast? = some c →
            urlStripChars.contains c = false) ∧
          (∀ s ∈ sources, s.title.isSome = !(findTitles r.toolOutput.toList).isEmpty)) ∧
      extractSources ("...https://example.com...".toList) =
        [{ title := none, url := "https://example.com" }] := by
  refine ⟨?_, ?_, by decide⟩
  · intro h
    unfold translateRecord
    rw [h]
    rw [if_neg (by decide), if_neg (by decide), if_pos rfl]
    refine ⟨if r.toolInput = "" then "" else truncateMsg 200 r.toolInput, rfl, ?_⟩
    by_cases hin : r.toolInput = ""
    · rw [if_pos hin]
      decide
    · rw [if_neg hin]
      exact truncateMsg_length_le 200 r.toolInput
  · intro h
    unfold translateRecord
    rw [h]
    rw [if_neg (by decide), if_neg (by decide), if_neg (by decide), if_pos rfl]
    by_cases hw : r.name = some "web_search" ∧ r.toolOutput ≠ ""
    · rw [if_pos hw]
      obtain ⟨hlen, hurl, htitle⟩ := extractSources_spec r.toolOutput.toList
      refine ⟨extractSources r.toolOutput.toList, rfl, hlen, ?_, htitle⟩
      intro s hs c hc
      obtain ⟨u, hu⟩ := hurl s hs
      rw [hu, List.toList_asString] at hc
      exact rstripSet_getLast_not_mem _ _ _ hc
    · rw [if_neg hw]
      refine ⟨[], rfl, by decide, ?_, ?_⟩
      · intro s hs
        cases hs
      · intro s hs
        cases hs

/-- Witness for claim C9 at a concrete web_search tool invocation. -/
theorem c9_tool_event_payloads_witness :
    (∃ inp, translateRecord Nat
        (⟨"on_tool_start", some "web_search", none, none, [], none,
          "what is corinna", "", none⟩ : Record Nat) =
          [Event.tool_start
            (orFalsy (⟨"on_tool_start", some "web_search", none, none, [], none,
              "what is corinna", "", none⟩ : Record Nat).name "unknown")
            (nodeOf (⟨"on_tool_start", some "web_search", none, none, [], none,
              "what is corinna", "", none⟩ : Record Nat)) inp] ∧
        inp.length ≤ 200) ∧
      (∃ sources, translateRecord Nat
          (⟨"on_tool_end", some "web_search", none, none, [], none,
            "", "...https://example.com...", none⟩ : Record Nat) =
            [Event.tool_end
              (orFalsy (⟨"on_tool_end", some "web_search", none, none, [], none,
                "", "...https://example.com...", none⟩ : Record Nat).name "unknown")
              (nodeOf (⟨"on_tool_end", some "web_search", none, none, [], none,
                "", "...https://example.com...", none⟩ : Record Nat))
              (⟨"on_tool_end", some "web_search", none, none, [], none,
                "", "...https://example.com...", none⟩ : Record Nat).toolOutput.length
              sources] ∧
          sources.length ≤ 8 ∧
          (∀ s ∈ sources, ∀ c, s.url.toList.getLast? = some c →
            urlStripChars.contains c = false) ∧
          (∀ s ∈ sources, s.title.isSome =
            !(findTitles (⟨"on_tool_end", some "web_search", none, none, [], none,
              "", "...https://example.com...", none⟩ :
                Record Nat).toolOutput.toList).isEmpty)) :=
  ⟨(c9_tool_event_payloads Nat
      (⟨"on_tool_start", some "web_search", none, none, [], none,
        "what is corinna", "", none⟩ : Record Nat)).1 rfl,
    (c9_tool_event_payloads Nat
      (⟨"on_tool_end", some "web_search", none, none, [], none,
        "", "...https://example.com...", none⟩ : Record Nat)).2.1 rfl⟩

/-- Ancestry-tracking state of `StreamingCallbackHandler`
(src/host-company-research/api/main.py lines 30-36): `run_to_question` maps
a run id to its question label, `run_to_parent` maps a run id to its parent
run id, `current_question` is the most recently extracted label.  Python
dict assignment is modelled by cons with first-match lookup, so a new entry
shadows an older one exactly as assignment overwrites. -/
structure HandlerState where
  run_to_question : List (String × String)
  run_to_parent : List (String × String)
  current_question : Option String
deriving Repr, DecidableEq

/-- Dictionary lookup for the two string maps. -/
def lookupStr (l : List (String × String)) (k : String) : Option String :=
  (l.find? (fun p => p.1 == k)).map Prod.snd

/-- Lookup through an optional key (`run_key and run_key in ...`: a falsy
key fails the lookup). -/
def optLookup (m : List (String × String)) (k : Option String) : Option String :=
  match k with
  | some s => lookupStr m s
  | none => none

/-- The ancestry walk of `_get_question_for_run` (lines 85-95): starting
from `c`, stop with `none` on a falsy or revisited id (the `visited` set
guards cycles), answer the first labelled id met, and otherwise follow
`run_to_parent`.  `fuel` bounds the iterations; `walkChain_fuel_ge` below
shows that any fuel of at least the number of unvisited parent-map keys
plus one computes the same answer, so a fuel of `parents.length + 1` is
faithful to the unbounded Python loop. -/
def walkChain (labels parents : List (String × String)) :
    Nat → List String → Option String → Option String
  | _, _, none => none
  | 0, _, some _ => none
  | fuel + 1, visited, some c =>
    if c ∈ visited then none
    else
      match lookupStr labels c with
      | some q => some q
      | none => walkChain labels parents fuel (c :: visited) (lookupStr parents c)

/-- The number of parent-map keys not yet visited: the walk can take at
most this many steps beyond the first. -/
def unvisitedKeys (parents : List (String × String)) (visited : List String) : Nat :=
  ((parents.map Prod.fst).filter (fun k => !(visited.contains k))).length

/-- Removing every copy of a present element shortens a list. -/
theorem length_filter_ne_lt (a : String) (l : List String) (ha : a ∈ l) :
    (l.filter (fun x => !(x == a))).length < l.length := by
  induction l with
  | nil => cases ha
  | cons b l ih =>
    rw [List.filter_cons]
    by_cases hb : b = a
    · subst hb
      rw [if_neg (by simp)]
      exact Nat.lt_succ_of_le (List.length_filter_le _ _)
    · rw [if_pos (by simp [hb]), List.length_cons]
      have hal : a ∈ l := by
        cases List.mem_cons.mp ha with
        | inl h => exact absurd h.symm hb
        | inr h => exact h
      exact Nat.succ_lt_succ (ih hal)

/-- Visiting a parent-map key strictly decreases the unvisited count. -/
theorem unvisitedKeys_cons_succ_le (parents : List (String × String)) (v : List String)
    (c : String) (hc : c ∈ parents.map Prod.fst) (hv : c ∉ v) :
    unvisitedKeys parents (c :: v) + 1 ≤ unvisitedKeys parents v := by
  unfold unvisitedKeys
  have hsub : (parents.map Prod.fst).filter (fun k => !((c :: v).contains k)) =
      ((parents.map Prod.fst).filter (fun k => !(v.contains k))).filter
        (fun k => !(k == c)) := by
    rw [List.filter_filter]
    apply List.filter_congr
    intro x _
    show (!((c :: v).contains x)) = (!(x == c) && !(v.contains x))
    rw [List.contains_cons, Bool.not_or]
  rw [hsub]
  have hmem : c ∈ (parents.map Prod.fst).filter (fun k => !(v.contains k)) := by
    rw [List.mem_filter]
    refine ⟨hc, by simp [hv]⟩
  exact length_filter_ne_lt c _ hmem

/-- A successful parent lookup means the id is a parent-map key. -/
theorem lookupStr_some_mem_keys (l : List (String × String)) (c x : String)
    (h : lookupStr l c = some x) : c ∈ l.map Prod.fst := by
  unfold lookupStr at h
  cases hf : l.find? (fun p => p.1 == c) with
  | none => rw [hf] at h; cases h
  | some pr =>
    have hmem := List.mem_of_find?_eq_some hf
    have hpred := List.find?_some hf
    have heq : pr.1 = c := by simpa using hpred
    rw [← heq]
    exact List.mem_map_of_mem Prod.fst hmem

/-- The walk on a falsy id answers nothing, whatever the fuel. -/
theorem walkChain_none (labels parents : List (String × String)) (fuel : Nat)
    (v : List String) : walkChain labels parents fuel v none = none := by
  cases fuel <;> rfl

/-- One extra unit of fuel changes nothing once the fuel covers the
unvisited parent-map keys plus one. -/
theorem walkChain_fuel_step (labels parents : List (String × String)) :
    ∀ (f : Nat) (v : List String) (c : Option String),
      unvisitedKeys parents v + 1 ≤ f →
      walkChain labels parents (f + 1) v c = walkChain labels parents f v c := by
  intro f
  induction f with
  | zero => intro v c h; exact absurd h (by omega)
  | succ f ih =>
    intro v c h
    cases c with
    | none => rfl
    | some cc =>
      simp only [walkChain]
      by_cases hv : cc ∈ v
      · rw [if_pos hv, if_pos hv]
      · rw [if_neg hv, if_neg hv]
        cases hl : lookupStr labels cc with
        | some q => rfl
        | none =>
          cases hp : lookupStr parents cc with
          | none =>
            show walkChain labels parents (f + 1) (cc :: v) none =
              walkChain labels parents f (cc :: v) none
            rw [walkChain_none, walkChain_none]
          | some c2 =>
            apply ih
            have hkey := lookupStr_some_mem_keys parents cc c2 hp
            have hlt := unvisitedKeys_cons_succ_le parents v cc hkey hv
            omega

/-- The walk is fuel-irrelevant above the sufficient bound. -/
theorem walkChain_fuel_ge (labels parents : List (String × String))
    (f g : Nat) (v : List String) (c : Option String)
    (hf : unvisitedKeys parents v + 1 ≤ f) (hg : f ≤ g) :
    walkChain labels parents g v c = walkChain labels parents f v c := by
  obtain ⟨n, rfl⟩ := Nat.exists_eq_add_of_le hg
  induction n with
  | zero => rfl
  | succ n ih =>
    rw [show f + (n + 1) = (f + n) + 1 from rfl]
    rw [walkChain_fuel_step labels parents (f + n) v c (by omega)]
    exact ih (by omega)

/-- Storing the parent relationship (lines 70-72): both ids must be truthy. -/
def storeParentLink (st : HandlerState) (runId parentId : Option String) : HandlerState :=
  match runId, parentId with
  | some r, some p => { st with run_to_parent := (r, p) :: st.run_to_parent }
  | _, _ => st

/-- Caching a resolved label for the run id when it is truthy (lines 80-82
and 91-93). -/
def cacheQuestion (st : HandlerState) (runId : Option String) (q : String) : HandlerState :=
  match runId with
  | some r => { st with run_to_question := (r, q) :: st.run_to_question }
  | none => st

/-- `_get_question_for_run` (host-company-research/api/main.py lines
65-98): store the parent link, then try the run id itself, then the parent
(caching a hit for the run id), then the ancestry walk from the parent
(caching a hit for the run id), and finally fall back to the most recent
label process-wide.  The walk fuel `run_to_parent.length + 1` equals the
unvisited-keys bound of `walkChain_fuel_ge`, so it reproduces the unbounded
Python loop. -/
def get_question_for_run (st : HandlerState) (runId parentId : Option String) :
    HandlerState × Option String :=
  let st1 := storeParentLink st runId parentId
  match optLookup st1.run_to_question runId with
  | some q => (st1, some q)
  | none =>
    match optLookup st1.run_to_question parentId with
    | some q => (cacheQuestion st1 runId q, some q)
    | none =>
      match walkChain st1.run_to_question st1.run_to_parent
          (st1.run_to_parent.length + 1) [] parentId with
      | some q => (cacheQuestion st1 runId q, some q)
      | none => (st1, st1.current_question)

/-- The resolution order exactly as the specification words it, for a
record with context id `r` and parent id `p`, over the state in which the
parent link r to p has just been stored (the "stored parent chain"): (1)
the label mapped to `r` itself; (2) the label mapped to `p`, cached for
`r`; (3) the label of the nearest labelled ancestor along the stored
parent chain from `p`, cycle-safe, cached for `r`; (4) the most recently
recorded label process-wide. -/
def resolveSpec (st : HandlerState) (r p : String) : HandlerState × Option String :=
  let st1 := storeParentLink st (some r) (some p)
  match lookupStr st1.run_to_question r with
  | some q => (st1, some q)
  | none =>
    match lookupStr st1.run_to_question p with
    | some q => (cacheQuestion st1 (some r) q, some q)
    | none =>
      match walkChain st1.run_to_question st1.run_to_parent
          (st1.run_to_parent.length + 1) [] (some p) with
      | some q => (cacheQuestion st1 (some r) q, some q)
      | none => (st1, st1.current_question)

/-- Looking up the key just cached answers the cached label. -/
theorem lookupStr_cons_self (l : List (String × String)) (k v : String) :
    lookupStr ((k, v) :: l) k = some v := by
  simp [lookupStr, List.find?_cons]

/-- Claim C8: task attribution follows the four-step resolution order and
returns the first hit - the label of `r`, else the label of `p` (then
cached for `r`), else the label of the nearest labelled ancestor along the
stored parent chain from `p` (cycle-safe, cached for `r`), else the most
recently recorded label process-wide. -/
theorem c8_task_attribution (st : HandlerState) (r p : String) :
    get_question_for_run st (some r) (some p) = resolveSpec st r p ∧
      (∀ q, lookupStr st.run_to_question r = some q →
        (get_question_for_run st (some r) (some p)).2 = some q) ∧
      (∀ q, lookupStr st.run_to_question r = none →
        lookupStr st.run_to_question p = some q →
        (get_question_for_run st (some r) (some p)).2 = some q ∧
          lookupStr (get_question_for_run st (some r) (some p)).1.run_to_question r =
            some q) ∧
      (∀ q, lookupStr st.run_to_question r = none →
        lookupStr st.run_to_question p = none →
        walkChain st.run_to_question ((r, p) :: st.run_to_parent)
            (((r, p) :: st.run_to_parent).length + 1) [] (some p) = some q →
        (get_question_for_run st (some r) (some p)).2 = some q ∧
          lookupStr (get_question_for_run st (some r) (some p)).1.run_to_question r =
            some q) ∧
      (lookupStr st.run_to_question r = none →
        lookupStr st.run_to_question p = none →
        walkChain st.run_to_question ((r, p) :: st.run_to_parent)
            (((r, p) :: st.run_to_parent).length + 1) [] (some p) = none →
        (get_question_for_run st (some r) (some p)).2 = st.current_question) := by
  refine ⟨rfl, ?_, ?_, ?_, ?_⟩
  · intro q h1
    simp only [get_question_for_run, storeParentLink, optLookup]
    rw [h1]
  · intro q h1 h2
    simp only [get_question_for_run, storeParentLink, optLookup]
    rw [h1, h2]
    exact ⟨rfl, lookupStr_cons_self _ _ _⟩
  · intro q h1 h2 h3
    simp only [get_question_for_run, storeParentLink, optLookup]
    rw [h1, h2, h3]
    exact ⟨rfl, lookupStr_cons_self _ _ _⟩
  · intro h1 h2 h3
    simp only [get_question_for_run, storeParentLink, optLookup]
    rw [h1, h2, h3]

/-- Witness for claim C8: run "c" with parent "b", where "b" is unlabelled
but its stored parent "a" carries label "Q": the walk resolves "Q" and it
is cached for "c". -/
theorem c8_task_attribution_witness :
    (get_question_for_run ⟨[("a", "Q")], [("b", "a")], none⟩ (some "c") (some "b")).2 =
        some "Q" ∧
      lookupStr (get_question_for_run ⟨[("a", "Q")], [("b", "a")], none⟩
          (some "c") (some "b")).1.run_to_question "c" = some "Q" :=
  (c8_task_attribution ⟨[("a", "Q")], [("b", "a")], none⟩ "c" "b").2.2.2.1 "Q"
    (by decide) (by decide) (by decide)

end Corinna
